import Mathlib

/-!
Verification of the `gray-formatter` quote rewriter
(`src/gray_formatter/quotes_rewriter.py`).

The development shallowly embeds the rewriter: source text is `List Char`,
a string-literal node is represented by its token span and decoded value,
`rewrite_quotes_for_node` mirrors `QuoteRewriter.rewrite_quotes_for_node`,
the `PyTree` visitor mirrors the `ast.NodeVisitor` traversal with the
docstring marking of `visit_definition`, and `applyReplacements` mirrors
the bottom-up splicing loop of `Rewriter.rewrite`.  The Python builtin
`repr` of a string (called by the code) and the language's string-literal
decoding (the parser collaborator's contract) are modelled by `pyRepr`
and `decodeLiteral`.
-/

namespace GrayFormatter

/-- Replacement edit recorded by the rewriter: a half-open character range
into the original source together with the new text for that range
(`replacements` entries in the Python class). -/
abbrev Edit := (Nat × Nat) × List Char

/-- Whether `pat` occurs at the very front of the second list. -/
def beginsWith : List Char → List Char → Bool
  | [], _ => true
  | _ :: _, [] => false
  | p :: ps, c :: cs => p == c && beginsWith ps cs

/-- Whether `pat` occurs contiguously anywhere inside the second list
(Python's substring test `pat in s`). -/
def containsSeq (pat : List Char) : List Char → Bool
  | [] => beginsWith pat []
  | c :: cs => beginsWith pat (c :: cs) || containsSeq pat cs

/-- Lowercase hexadecimal digit character for a value below 16. -/
def hexDigit (n : Nat) : Char :=
  if n < 10 then Char.ofNat (48 + n) else Char.ofNat (87 + n)

/-- Fixed-width big-endian lowercase hexadecimal spelling of `n`. -/
def hexSeq : Nat → Nat → List Char
  | 0, _ => []
  | w + 1, n => hexDigit (n / 16 ^ w % 16) :: hexSeq w n

/-- Quote character chosen by the language's `repr` of a string value:
single quotes, unless the value contains a single quote and no double
quote. -/
def pyQuote (s : List Char) : Char :=
  if s.contains '\'' && !(s.contains '"') then '"' else '\''

/-- One character of a string value escaped for its `repr` spelling with
chosen quote `q`.  The parameter `pr` abstracts the Unicode printability
table that the language consults for code points above U+007E; every
claim-relevant behaviour is independent of it. -/
def pyEscapeChar (pr : Char → Bool) (q c : Char) : List Char :=
  if c = q ∨ c = '\\' then ['\\', c]
  else if c = '\t' then ['\\', 't']
  else if c = '\n' then ['\\', 'n']
  else if c = '\r' then ['\\', 'r']
  else if c.toNat < 0x20 ∨ c.toNat = 0x7f then '\\' :: 'x' :: hexSeq 2 c.toNat
  else if c.toNat < 0x7f then [c]
  else if pr c then [c]
  else if c.toNat ≤ 0xff then '\\' :: 'x' :: hexSeq 2 c.toNat
  else if c.toNat ≤ 0xffff then '\\' :: 'u' :: hexSeq 4 c.toNat
  else '\\' :: 'U' :: hexSeq 8 c.toNat

/-- Escaped body of the `repr` spelling of a string value. -/
def escBody (pr : Char → Bool) (q : Char) : List Char → List Char
  | [] => []
  | c :: cs => pyEscapeChar pr q c ++ escBody pr q cs

/-- The language's `repr` of a string value: chosen quote, escaped body,
closing quote.  This models the Python builtin `repr` that
`rewrite_quotes_for_node` calls on `node.s`. -/
def pyRepr (pr : Char → Bool) (s : List Char) : List Char :=
  pyQuote s :: escBody pr (pyQuote s) s ++ [pyQuote s]

/-- Numeric value of one hexadecimal digit character. -/
def hexVal (c : Char) : Option Nat :=
  if 48 ≤ c.toNat ∧ c.toNat ≤ 57 then some (c.toNat - 48)
  else if 97 ≤ c.toNat ∧ c.toNat ≤ 102 then some (c.toNat - 87)
  else if 65 ≤ c.toNat ∧ c.toNat ≤ 70 then some (c.toNat - 55)
  else none

/-- Numeric value of one octal digit character. -/
def octVal (c : Char) : Option Nat :=
  if 48 ≤ c.toNat ∧ c.toNat ≤ 55 then some (c.toNat - 48) else none

/-- Read exactly `w` hexadecimal digits from the front of the input,
accumulating big-endian into `acc`; returns the value and the rest. -/
def grabHex (acc : Nat) : Nat → List Char → Option (Nat × List Char)
  | 0, l => some (acc, l)
  | _ + 1, [] => none
  | w + 1, c :: cs =>
    match hexVal c with
    | some d => grabHex (16 * acc + d) w cs
    | none => none

/-- The rest returned by `grabHex` is never longer than the input. -/
theorem grabHex_le (w : Nat) : ∀ (acc : Nat) (l : List Char) (nr : Nat × List Char),
    grabHex acc w l = some nr → nr.2.length ≤ l.length := by
  induction w with
  | zero =>
    intro acc l nr h
    simp [grabHex] at h
    subst h
    simp
  | succ w ih =>
    intro acc l nr h
    cases l with
    | nil => simp [grabHex] at h
    | cons c cs =>
      simp only [grabHex] at h
      cases hv : hexVal c with
      | none => rw [hv] at h; simp at h
      | some d =>
        rw [hv] at h
        simp only [List.length_cons]
        exact Nat.le_succ_of_le (ih _ _ _ h)

/-- Read up to two further octal digits of an octal escape whose first
digit has value `d1`; returns the character value and the rest. -/
def grabOct (d1 : Nat) : List Char → Nat × List Char
  | [] => (d1, [])
  | o2 :: rest2 =>
    match octVal o2 with
    | none => (d1, o2 :: rest2)
    | some d2 =>
      match rest2 with
      | [] => (8 * d1 + d2, [])
      | o3 :: rest3 =>
        match octVal o3 with
        | none => (8 * d1 + d2, o3 :: rest3)
        | some d3 => (64 * d1 + 8 * d2 + d3, rest3)

/-- The rest returned by `grabOct` is never longer than the input. -/
theorem grabOct_le (d1 : Nat) (l : List Char) (p : Nat × List Char)
    (h : grabOct d1 l = p) : p.2.length ≤ l.length := by
  subst h
  cases l with
  | nil => simp [grabOct]
  | cons o2 rest2 =>
    simp only [grabOct]
    cases octVal o2 with
    | none => simp
    | some d2 =>
      cases rest2 with
      | nil => simp
      | cons o3 rest3 =>
        simp only
        cases octVal o3 with
        | none => simp
        | some d3 => simp; omega

/-- Modelled from the spec: the language's string-literal decoding, on the
body of a quoted literal (the text between the delimiters).  `tq` is true
for triple-quoted bodies, where raw newlines and bare quote characters are
allowed; `q` is the delimiter character.  The escape forms are the ones
the language defines for plain literals; an unknown escape keeps its
backslash, as the language does. -/
def decodeBody (tq : Bool) (q : Char) : List Char → Option (List Char)
  | [] => some []
  | c :: rest =>
    if c = '\\' then
      match rest with
      | [] => none
      | e :: rest1 =>
        if e = '\n' then decodeBody tq q rest1
        else if e = 'n' then (decodeBody tq q rest1).map (fun t => '\n' :: t)
        else if e = 't' then (decodeBody tq q rest1).map (fun t => '\t' :: t)
        else if e = 'r' then (decodeBody tq q rest1).map (fun t => '\r' :: t)
        else if e = '\\' then (decodeBody tq q rest1).map (fun t => '\\' :: t)
        else if e = '\'' then (decodeBody tq q rest1).map (fun t => '\'' :: t)
        else if e = '"' then (decodeBody tq q rest1).map (fun t => '"' :: t)
        else if e = 'a' then (decodeBody tq q rest1).map (fun t => Char.ofNat 7 :: t)
        else if e = 'b' then (decodeBody tq q rest1).map (fun t => Char.ofNat 8 :: t)
        else if e = 'f' then (decodeBody tq q rest1).map (fun t => Char.ofNat 12 :: t)
        else if e = 'v' then (decodeBody tq q rest1).map (fun t => Char.ofNat 11 :: t)
        else if e = 'x' then
          match h : grabHex 0 2 rest1 with
          | some nr => (decodeBody tq q nr.2).map (fun t => Char.ofNat nr.1 :: t)
          | none => none
        else if e = 'u' then
          match h : grabHex 0 4 rest1 with
          | some nr =>
            if nr.1.isValidChar then (decodeBody tq q nr.2).map (fun t => Char.ofNat nr.1 :: t)
            else none
          | none => none
        else if e = 'U' then
          match h : grabHex 0 8 rest1 with
          | some nr =>
            if nr.1.isValidChar then (decodeBody tq q nr.2).map (fun t => Char.ofNat nr.1 :: t)
            else none
          | none => none
        else
          match octVal e with
          | some d1 =>
            match h : grabOct d1 rest1 with
            | p => (decodeBody tq q p.2).map (fun t => Char.ofNat p.1 :: t)
          | none => (decodeBody tq q rest1).map (fun t => '\\' :: e :: t)
    else
      if tq = false ∧ (c = q ∨ c = '\n') then none
      else (decodeBody tq q rest).map (fun t => c :: t)
termination_by l => l.length
decreasing_by
  all_goals simp_wf
  all_goals try have h9 := grabHex_le _ _ _ _ (by assumption)
  all_goals try have h9 := grabOct_le _ _ _ (by assumption)
  all_goals omega

/-- If `l = body ++ suff`, return that body, else `none`. -/
def chopEnd (l suff : List Char) : Option (List Char) :=
  if suff.length ≤ l.length ∧ l.drop (l.length - suff.length) = suff then
    some (l.take (l.length - suff.length))
  else none

/-- Modelled from the spec: decode a complete plain string literal
(delimiters included, no prefix letters) into its string value; `none`
when the spelling is not a well-formed plain literal.  This is the
contract of the external parser: a literal node's decoded value `s` is
`decodeLiteral` of its spelling. -/
def decodeLiteral (lit : List Char) : Option (List Char) :=
  match lit with
  | [] => none
  | q :: rest =>
    if q = '\'' ∨ q = '"' then
      if beginsWith [q, q] rest then
        match chopEnd (rest.drop 2) [q, q, q] with
        | some body => decodeBody true q body
        | none => none
      else
        match chopEnd rest [q] with
        | some body => decodeBody false q body
        | none => none
    else none

/-- Characters of the source occupied by a node: `source[a:b]` with
Python's clamping slice semantics. -/
def extractSpan (source : List Char) (tr : Nat × Nat) : List Char :=
  (source.drop tr.1).take (tr.2 - tr.1)

/-- Shallow embedding of `QuoteRewriter.rewrite_quotes_for_node`: decide
the replacement, if any, for one string-literal node.  `source` is the
file text, `text_range` the node's span from the token map ((0,0) is the
unmappable sentinel), `s` the node's decoded string value (`node.s`), and
the flag is the `is_docstring` attribute read through `getattr`. -/
def rewrite_quotes_for_node (pr : Char → Bool) (source : List Char)
    (text_range : Nat × Nat) (s : List Char) (isDocstring : Bool) :
    Option Edit :=
  if text_range = (0, 0) then none
  else if isDocstring then none
  else if extractSpan source text_range = ['"', '"'] ∨
      extractSpan source text_range = ['\'', '\''] then
    some (text_range, ['\'', '\''])
  else if ¬ ((extractSpan source text_range).head? = some '"' ∨
      (extractSpan source text_range).head? = some '\'') then none
  else if s.length = 1 then some (text_range, pyRepr pr s)
  else if (extractSpan source text_range).contains '\n' then none
  else if s.contains '\n' || containsSeq ['\\', 'n'] s then none
  else some (text_range, pyRepr pr s)

/-- Abstract syntax tree shape seen by the visitor.  `strLit` is a
string-valued constant node carrying its token span and decoded value;
`exprStmt` is a bare expression statement (`ast.Expr`); `defNode` is a
function, class, or async-function definition with its statement body and
its remaining child subtrees (arguments, decorators, bases — statement-free
expression children, traversed generically); `moduleNode` is the module
root; `node` is any other node with its children. -/
inductive PyTree where
  | strLit : (Nat × Nat) → List Char → PyTree
  | exprStmt : PyTree → PyTree
  | defNode : List PyTree → List PyTree → PyTree
  | moduleNode : List PyTree → PyTree
  | node : List PyTree → PyTree

mutual

/-- Shallow embedding of the `QuoteRewriter` traversal for a node carrying
no docstring mark: `visit_Constant` records the literal's replacement,
`visit_ClassDef` / `visit_FunctionDef` / `visit_AsyncFunctionDef` go
through `visit_definition`, which marks the value of a leading bare
expression statement before descending; everything else is
`generic_visit`. -/
def visitNode (pr : Char → Bool) (source : List Char) : PyTree → List Edit
  | .strLit tr s => (rewrite_quotes_for_node pr source tr s false).toList
  | .exprStmt v => visitNode pr source v
  | .defNode body extra =>
    (match body with
     | [] => []
     | b :: rest => visitFirstStmt pr source b ++ visitNodeList pr source rest) ++
      visitNodeList pr source extra
  | .moduleNode body => visitNodeList pr source body
  | .node children => visitNodeList pr source children

/-- Visit the first statement of a definition body: `visit_definition`
sets `is_docstring` on its value exactly when it is a bare expression
statement. -/
def visitFirstStmt (pr : Char → Bool) (source : List Char) : PyTree → List Edit
  | .exprStmt v => visitMarkedNode pr source v
  | .strLit tr s => (rewrite_quotes_for_node pr source tr s false).toList
  | .defNode body extra =>
    (match body with
     | [] => []
     | b :: rest => visitFirstStmt pr source b ++ visitNodeList pr source rest) ++
      visitNodeList pr source extra
  | .moduleNode body => visitNodeList pr source body
  | .node children => visitNodeList pr source children

/-- Visit a node that carries the docstring mark.  Only a string-constant
node consults the mark (`getattr(node, "is_docstring", False)`); on any
other node it is inert and the children are visited unmarked. -/
def visitMarkedNode (pr : Char → Bool) (source : List Char) : PyTree → List Edit
  | .strLit tr s => (rewrite_quotes_for_node pr source tr s true).toList
  | .exprStmt v => visitNode pr source v
  | .defNode body extra =>
    (match body with
     | [] => []
     | b :: rest => visitFirstStmt pr source b ++ visitNodeList pr source rest) ++
      visitNodeList pr source extra
  | .moduleNode body => visitNodeList pr source body
  | .node children => visitNodeList pr source children

/-- Visit a list of child nodes in order, concatenating their edits. -/
def visitNodeList (pr : Char → Bool) (source : List Char) : List PyTree → List Edit
  | [] => []
  | t :: ts => visitNode pr source t ++ visitNodeList pr source ts

end

/-- Splice one replacement into the working text:
`text[:start] + replacement + text[end:]`. -/
def spliceOne (text : List Char) (ed : Edit) : List Char :=
  text.take ed.1.1 ++ ed.2 ++ text.drop ed.1.2

/-- Descending lexicographic comparison of the `(start, end)` keys, the
order produced by `sorted(..., key=itemgetter(0), reverse=True)`. -/
def keyGe (a b : Edit) : Prop :=
  b.1.1 < a.1.1 ∨ (a.1.1 = b.1.1 ∧ b.1.2 ≤ a.1.2)

instance : DecidableRel keyGe := fun a b => by
  unfold keyGe; infer_instance

/-- Shallow embedding of the apply pass of `Rewriter.rewrite`: sort the
recorded replacements bottom-up (descending by their range key, stably)
and splice each one into the working text in turn. -/
def applyReplacements (source : List Char) (reps : List Edit) : List Char :=
  (List.insertionSort keyGe reps).foldl spliceOne source

/-- Shallow embedding of `QuoteRewriter(source).rewrite()`: visit the tree
collecting replacements, then apply them to the source. -/
def rewriteSource (pr : Char → Bool) (source : List Char) (tree : PyTree) : List Char :=
  applyReplacements source (visitNode pr source tree)

/-- Modelled from the spec: the frame-shaped output of the apply pass.
Given edits in ascending span order, the output keeps every source
character before, between and after the edited spans unchanged and in
order, with each span's text replaced: reading from `pos`, copy the
source up to the next edit's start, emit its replacement, continue after
its end. -/
def frameFrom (source : List Char) (pos : Nat) : List Edit → List Char
  | [] => source.drop pos
  | ed :: rest => (source.drop pos).take (ed.1.1 - pos) ++ ed.2 ++ frameFrom source ed.1.2 rest

/-- Concrete printability table used in closed statements: printable
ASCII.  Witness inputs are ASCII, where every table agrees with the
language's. -/
def asciiOnlyPrintable (c : Char) : Bool :=
  decide (0x20 ≤ c.toNat ∧ c.toNat ≤ 0x7e)

set_option maxHeartbeats 1600000 in
theorem hexVal_hexDigit (k : Nat) (hk : k < 16) : hexVal (hexDigit k) = some k := by
  interval_cases k <;> decide

set_option maxHeartbeats 1600000 in
theorem hexDigit_ne_newline (k : Nat) (hk : k < 16) : hexDigit k ≠ '\n' := by
  interval_cases k <;> decide

theorem newline_not_mem_hexSeq (w : Nat) : ∀ n : Nat, '\n' ∉ hexSeq w n := by
  induction w with
  | zero => intro n; simp [hexSeq]
  | succ w ih =>
    intro n
    simp only [hexSeq, List.mem_cons, not_or]
    exact ⟨fun h => hexDigit_ne_newline _ (Nat.mod_lt _ (by omega)) h.symm, ih n⟩

theorem grabHex_hexSeq (w : Nat) : ∀ (acc n : Nat) (t : List Char),
    grabHex acc w (hexSeq w n ++ t) = some (acc * 16 ^ w + n % 16 ^ w, t) := by
  induction w with
  | zero => intro acc n t; simp [grabHex, hexSeq, Nat.mod_one]
  | succ w ih =>
    intro acc n t
    have hlt : n / 16 ^ w % 16 < 16 := Nat.mod_lt _ (by omega)
    simp only [hexSeq, List.cons_append, grabHex, hexVal_hexDigit _ hlt, List.append_eq]
    rw [ih]
    have hms : n % 16 ^ (w + 1) = n % 16 ^ w + 16 ^ w * (n / 16 ^ w % 16) := by
      rw [pow_succ]
      exact Nat.mod_mul
    rw [Option.some.injEq, Prod.mk.injEq]
    refine ⟨?_, rfl⟩
    rw [hms]; ring

theorem pyQuote_mem (s : List Char) : pyQuote s = '\'' ∨ pyQuote s = '"' := by
  unfold pyQuote
  split_ifs <;> simp

set_option maxHeartbeats 4000000 in
/-- Exhaustive characterization of the escape output, one disjunct per
branch of `pyEscapeChar`, each with the facts its branch condition gives. -/
theorem pyEscapeChar_cases (pr : Char → Bool) (q c : Char) :
    ((c = q ∨ c = '\\') ∧ pyEscapeChar pr q c = ['\\', c]) ∨
    (c = '\t' ∧ pyEscapeChar pr q c = ['\\', 't']) ∨
    (c = '\n' ∧ pyEscapeChar pr q c = ['\\', 'n']) ∨
    (c = '\r' ∧ pyEscapeChar pr q c = ['\\', 'r']) ∨
    (pyEscapeChar pr q c = '\\' :: 'x' :: hexSeq 2 c.toNat ∧ c.toNat < 0x100 ∧
      ¬(c = q ∨ c = '\\')) ∨
    (pyEscapeChar pr q c = [c] ∧ ¬(c = q ∨ c = '\\') ∧ c ≠ '\t' ∧ c ≠ '\n' ∧ c ≠ '\r' ∧
      ¬(c.toNat < 0x20 ∨ c.toNat = 0x7f)) ∨
    (pyEscapeChar pr q c = '\\' :: 'u' :: hexSeq 4 c.toNat ∧ c.toNat < 0x10000 ∧
      ¬(c = q ∨ c = '\\') ∧ c ≠ '\n') ∨
    (pyEscapeChar pr q c = '\\' :: 'U' :: hexSeq 8 c.toNat ∧
      ¬(c = q ∨ c = '\\') ∧ c ≠ '\n') := by
  unfold pyEscapeChar
  split_ifs with h1 h2 h3 h4 h5 h6 h7 h8 h9
  · exact Or.inl ⟨h1, rfl⟩
  · exact Or.inr (Or.inl ⟨h2, rfl⟩)
  · exact Or.inr (Or.inr (Or.inl ⟨h3, rfl⟩))
  · exact Or.inr (Or.inr (Or.inr (Or.inl ⟨h4, rfl⟩)))
  · refine Or.inr (Or.inr (Or.inr (Or.inr (Or.inl ⟨rfl, ?_, h1⟩))))
    rcases h5 with h5 | h5 <;> omega
  · exact Or.inr (Or.inr (Or.inr (Or.inr (Or.inr (Or.inl ⟨rfl, h1, h2, h3, h4, h5⟩)))))
  · exact Or.inr (Or.inr (Or.inr (Or.inr (Or.inr (Or.inl ⟨rfl, h1, h2, h3, h4, h5⟩)))))
  · refine Or.inr (Or.inr (Or.inr (Or.inr (Or.inl ⟨rfl, by omega, h1⟩))))
  · refine Or.inr (Or.inr (Or.inr (Or.inr (Or.inr (Or.inr (Or.inl ⟨rfl, by omega, h1, h3⟩))))))
  · exact Or.inr (Or.inr (Or.inr (Or.inr (Or.inr (Or.inr (Or.inr ⟨rfl, h1, h3⟩))))))

theorem pyEscapeChar_ne_nil (pr : Char → Bool) (q c : Char) :
    pyEscapeChar pr q c ≠ [] := by
  rcases pyEscapeChar_cases pr q c with ⟨_, h⟩ | ⟨_, h⟩ | ⟨_, h⟩ | ⟨_, h⟩ |
    ⟨h, _⟩ | ⟨h, _⟩ | ⟨h, _⟩ | ⟨h, _⟩ <;> simp [h]

theorem pyEscapeChar_head_ne (pr : Char → Bool) (q c : Char)
    (hq : q = '\'' ∨ q = '"') : (pyEscapeChar pr q c).head? ≠ some q := by
  have hbq : ('\\' : Char) ≠ q := by rcases hq with hq | hq <;> subst hq <;> decide
  rcases pyEscapeChar_cases pr q c with ⟨_, h⟩ | ⟨_, h⟩ | ⟨_, h⟩ | ⟨_, h⟩ |
    ⟨h, _⟩ | ⟨h, hc, _⟩ | ⟨h, _⟩ | ⟨h, _⟩ <;> simp [h, hbq]
  intro hcq
  exact hc (Or.inl hcq)

theorem newline_not_mem_pyEscapeChar (pr : Char → Bool) (q c : Char)
    (hq : q = '\'' ∨ q = '"') : '\n' ∉ pyEscapeChar pr q c := by
  have hqn : q ≠ '\n' := by rcases hq with hq | hq <;> subst hq <;> decide
  rcases pyEscapeChar_cases pr q c with ⟨hc, h⟩ | ⟨_, h⟩ | ⟨_, h⟩ | ⟨_, h⟩ |
    ⟨h, _, _⟩ | ⟨h, _, _, hn, _⟩ | ⟨h, _, _, hn⟩ | ⟨h, _, hn⟩
  · rw [h]
    rcases hc with hc | hc <;> subst hc
    · intro hm
      rcases List.mem_cons.mp hm with hm | hm
      · exact absurd hm (by decide)
      · exact hqn (List.mem_singleton.mp hm).symm
    · decide
  · rw [h]; decide
  · rw [h]; decide
  · rw [h]; decide
  · rw [h]
    intro hm
    simp only [List.mem_cons] at hm
    rcases hm with hm | hm | hm
    · exact absurd hm.symm (by decide)
    · exact absurd hm.symm (by decide)
    · exact newline_not_mem_hexSeq 2 c.toNat hm
  · rw [h]
    simp
    exact fun hh => hn hh.symm
  · rw [h]
    intro hm
    simp only [List.mem_cons] at hm
    rcases hm with hm | hm | hm
    · exact absurd hm.symm (by decide)
    · exact absurd hm.symm (by decide)
    · exact newline_not_mem_hexSeq 4 c.toNat hm
  · rw [h]
    intro hm
    simp only [List.mem_cons] at hm
    rcases hm with hm | hm | hm
    · exact absurd hm.symm (by decide)
    · exact absurd hm.symm (by decide)
    · exact newline_not_mem_hexSeq 8 c.toNat hm

/-- Decoding after escaping restores the character: one step of the
round-trip between `pyEscapeChar` and `decodeBody`. -/
theorem decodeBody_pyEscapeChar (pr : Char → Bool) (q c : Char) (t : List Char)
    (hq : q = '\'' ∨ q = '"') :
    decodeBody false q (pyEscapeChar pr q c ++ t)
      = (decodeBody false q t).map (fun r => c :: r) := by
  rcases pyEscapeChar_cases pr q c with
    ⟨hc, h⟩ | ⟨hc, h⟩ | ⟨hc, h⟩ | ⟨hc, h⟩ | ⟨h, hb, hc⟩ | ⟨h, hc1, hc2, hc3, hc4, hc5⟩ |
    ⟨h, hb, hc, hn⟩ | ⟨h, hc, hn⟩
  · rw [h]
    rcases hc with hc | hc
    · subst hc
      rcases hq with hq | hq <;> subst hq <;> (rw [decodeBody.eq_def]; simp)
    · subst hc
      rw [decodeBody.eq_def]; simp
  · subst hc
    rw [h, decodeBody.eq_def]; simp
  · subst hc
    rw [h, decodeBody.eq_def]; simp
  · subst hc
    rw [h, decodeBody.eq_def]; simp
  · rw [h]
    rw [decodeBody.eq_def]
    norm_num
    rw [grabHex_hexSeq]
    simp [Nat.mod_eq_of_lt hb, Char.ofNat_toNat]
  · rw [h]
    have h1 : ¬ (c = '\\') := fun hh => hc1 (Or.inr hh)
    have h2 : ¬ (c = q) := fun hh => hc1 (Or.inl hh)
    rw [decodeBody.eq_def]
    simp [h1, h2, hc3]
  · rw [h]
    have hv : Nat.isValidChar c.toNat := c.valid
    rw [decodeBody.eq_def]
    norm_num
    rw [grabHex_hexSeq]
    simp [Nat.mod_eq_of_lt hb, Char.ofNat_toNat, hv]
  · rw [h]
    have hv : Nat.isValidChar c.toNat := c.valid
    have hb : c.toNat < 16 ^ 8 := by
      unfold Nat.isValidChar at hv
      rcases hv with hv | ⟨hv1, hv2⟩ <;> omega
    norm_num at hb
    rw [decodeBody.eq_def]
    norm_num
    rw [grabHex_hexSeq]
    norm_num
    simp [Nat.mod_eq_of_lt hb, Char.ofNat_toNat, hv]

/-- Decoding the escaped body of a value restores the value. -/
theorem decodeBody_escBody (pr : Char → Bool) (q : Char)
    (hq : q = '\'' ∨ q = '"') : ∀ s : List Char,
    decodeBody false q (escBody pr q s) = some s := by
  intro s
  induction s with
  | nil => rw [decodeBody.eq_def]; rfl
  | cons c cs ih =>
    show decodeBody false q (pyEscapeChar pr q c ++ escBody pr q cs) = _
    rw [decodeBody_pyEscapeChar pr q c _ hq, ih]
    rfl

theorem chopEnd_append (xs ys : List Char) : chopEnd (xs ++ ys) ys = some xs := by
  unfold chopEnd
  have hl : (xs ++ ys).length - ys.length = xs.length := by
    simp
  rw [hl]
  rw [if_pos ⟨by simp, List.drop_left xs ys⟩]
  rw [List.take_left]

theorem beginsWith_qq_escBody (pr : Char → Bool) (q : Char)
    (hq : q = '\'' ∨ q = '"') (s : List Char) :
    beginsWith [q, q] (escBody pr q s ++ [q]) = false := by
  cases s with
  | nil =>
    show beginsWith [q, q] ([] ++ [q]) = false
    simp [beginsWith]
  | cons c cs =>
    obtain ⟨x, l, hx⟩ : ∃ x l, pyEscapeChar pr q c = x :: l := by
      cases h : pyEscapeChar pr q c with
      | nil => exact absurd h (pyEscapeChar_ne_nil pr q c)
      | cons x l => exact ⟨x, l, rfl⟩
    have hxq : (q == x) = false := by
      have hh := pyEscapeChar_head_ne pr q c hq
      rw [hx] at hh
      simp only [List.head?_cons, ne_eq, Option.some.injEq] at hh
      exact beq_eq_false_iff_ne.mpr fun he => hh he.symm
    show beginsWith [q, q] ((pyEscapeChar pr q c ++ escBody pr q cs) ++ [q]) = false
    rw [hx]
    simp only [List.cons_append, beginsWith, hxq, Bool.false_and]

/-- Round trip: the `repr` spelling of any string value decodes back to
exactly that value. -/
theorem decodeLiteral_pyRepr (pr : Char → Bool) (s : List Char) :
    decodeLiteral (pyRepr pr s) = some s := by
  have hq := pyQuote_mem s
  show decodeLiteral (pyQuote s :: (escBody pr (pyQuote s) s ++ [pyQuote s])) = some s
  simp only [decodeLiteral]
  rw [if_pos hq, beginsWith_qq_escBody pr _ hq s]
  simp only [Bool.false_eq_true, if_false]
  rw [chopEnd_append]
  exact decodeBody_escBody pr _ hq s

/-- C4 (amended): a literal whose decoded value contains a newline or a
backslash-n sequence gets no edit, except when the value has exactly one
character; the empty-spelling premise links spelling and value as the
parser guarantees. -/
theorem newline_content_skip_amended (pr : Char → Bool) (source : List Char)
    (tr : Nat × Nat) (s : List Char) (d : Bool)
    (h1 : (s.contains '\n' || containsSeq ['\\', 'n'] s) = true)
    (h2 : s.length ≠ 1)
    (h3 : (extractSpan source tr = ['"', '"'] ∨ extractSpan source tr = ['\'', '\'']) → s = []) :
    rewrite_quotes_for_node pr source tr s d = none := by
  unfold rewrite_quotes_for_node
  split_ifs with g1 g2 g3 <;> try rfl
  have hs := h3 g3
  subst hs
  exact absurd h1 (by decide)

/-- C10: an eligible literal node is replaced, in one edit covering its
whole span, by the single repr spelling of its decoded value; for a node
produced from adjacent implicitly-concatenated parts the span covers all
parts and the value is the combined string. -/
theorem implicit_concat_single_edit (pr : Char → Bool) (source : List Char)
    (tr : Nat × Nat) (s : List Char)
    (h0 : tr ≠ (0, 0))
    (h1 : ¬(extractSpan source tr = ['"', '"'] ∨ extractSpan source tr = ['\'', '\'']))
    (h2 : (extractSpan source tr).head? = some '"' ∨ (extractSpan source tr).head? = some '\'')
    (h3 : s.length ≠ 1)
    (h4 : (extractSpan source tr).contains '\n' = false)
    (h5 : (s.contains '\n' || containsSeq ['\\', 'n'] s) = false) :
    rewrite_quotes_for_node pr source tr s false = some (tr, pyRepr pr s) := by
  unfold rewrite_quotes_for_node
  rw [if_neg h0]
  rw [if_neg (by simp)]
  rw [if_neg h1]
  rw [if_neg (by simp [h2])]
  rw [if_neg h3]
  rw [if_neg (by rw [h4]; decide)]
  rw [if_neg (by rw [h5]; decide)]

theorem pyRepr_head (pr : Char → Bool) (s : List Char) :
    (pyRepr pr s).head? = some (pyQuote s) := rfl

theorem pyRepr_nil (pr : Char → Bool) : pyRepr pr [] = ['\'', '\''] := rfl

theorem pyRepr_length (pr : Char → Bool) (s : List Char) (hs : s ≠ []) :
    3 ≤ (pyRepr pr s).length := by
  obtain ⟨c, cs, rfl⟩ : ∃ c cs, s = c :: cs := by
    cases s with
    | nil => exact absurd rfl hs
    | cons c cs => exact ⟨c, cs, rfl⟩
  show 3 ≤ (pyQuote _ :: ((pyEscapeChar pr _ c ++ escBody pr _ cs) ++ [pyQuote _])).length
  obtain ⟨x, l, hx⟩ : ∃ x l, pyEscapeChar pr (pyQuote (c :: cs)) c = x :: l := by
    cases h : pyEscapeChar pr (pyQuote (c :: cs)) c with
    | nil => exact absurd h (pyEscapeChar_ne_nil _ _ _)
    | cons x l => exact ⟨x, l, rfl⟩
  rw [hx]
  simp
  omega

theorem pyQuote_single (c : Char) (hc : c ≠ '\'') : pyQuote [c] = '\'' := by
  unfold pyQuote
  rw [if_neg]
  simp [List.contains]
  intro hcc
  exact absurd hcc.symm hc

theorem newline_not_mem_escBody (pr : Char → Bool) (q : Char)
    (hq : q = '\'' ∨ q = '"') : ∀ s : List Char, '\n' ∉ escBody pr q s := by
  intro s
  induction s with
  | nil => simp [escBody]
  | cons c cs ih =>
    show '\n' ∉ pyEscapeChar pr q c ++ escBody pr q cs
    rw [List.mem_append]
    rintro (hm | hm)
    · exact newline_not_mem_pyEscapeChar pr q c hq hm
    · exact ih hm

theorem pyRepr_contains_newline (pr : Char → Bool) (s : List Char) :
    (pyRepr pr s).contains '\n' = false := by
  have hq := pyQuote_mem s
  have hmem : '\n' ∉ pyRepr pr s := by
    show '\n' ∉ pyQuote s :: (escBody pr (pyQuote s) s ++ [pyQuote s])
    simp only [List.mem_cons, List.mem_append, List.mem_singleton]
    rintro (hm | hm | hm)
    · rcases hq with hq' | hq' <;> rw [hq'] at hm <;> exact absurd hm (by decide)
    · exact newline_not_mem_escBody pr _ hq s hm
    · rcases hq with hq' | hq' <;> rw [hq'] at hm <;> exact absurd hm (by decide)
  rw [Bool.eq_false_iff]
  intro hc
  exact hmem (List.elem_iff.mp hc)

theorem pyRepr_ne_pair (pr : Char → Bool) (s : List Char) (hs : s ≠ [])
    (a b : Char) : pyRepr pr s ≠ [a, b] := by
  intro hh
  have := pyRepr_length pr s hs
  rw [hh] at this
  simp at this

/-- C2 (amended): empty spellings and single-character values, for a
mappable non-docstring node. -/
theorem empty_and_single_char_amended (pr : Char → Bool) (source : List Char)
    (tr : Nat × Nat) (s : List Char) (h0 : tr ≠ (0, 0)) :
    ((extractSpan source tr = ['"', '"'] ∨ extractSpan source tr = ['\'', '\'']) →
      rewrite_quotes_for_node pr source tr s false = some (tr, ['\'', '\''])) ∧
    (¬(extractSpan source tr = ['"', '"'] ∨ extractSpan source tr = ['\'', '\'']) →
      ((extractSpan source tr).head? = some '"' ∨ (extractSpan source tr).head? = some '\'') →
      s.length = 1 →
      rewrite_quotes_for_node pr source tr s false = some (tr, pyRepr pr s) ∧
      (pyRepr pr s).head? = some (pyQuote s) ∧
      (s = ['\''] → pyQuote s = '"') ∧
      (s ≠ ['\''] → pyQuote s = '\'')) := by
  constructor
  · intro hsp
    unfold rewrite_quotes_for_node
    rw [if_neg h0, if_neg (by simp), if_pos hsp]
  · intro hsp hhd hlen
    refine ⟨?_, pyRepr_head pr s, ?_, ?_⟩
    · unfold rewrite_quotes_for_node
      rw [if_neg h0, if_neg (by simp), if_neg hsp, if_neg (by simp [hhd]), if_pos hlen]
    · intro hs; subst hs; decide
    · intro hs
      obtain ⟨c, rfl⟩ : ∃ c, s = [c] := by
        cases s with
        | nil => simp at hlen
        | cons c cs =>
          cases cs with
          | nil => exact ⟨c, rfl⟩
          | cons d ds => simp at hlen
      exact pyQuote_single c (fun hc => hs (by rw [hc]))

/-- C6: whenever a replacement is recorded for a literal whose spelling
decodes to the node value, the replacement decodes to that same value. -/
theorem value_preservation (pr : Char → Bool) (source : List Char)
    (tr : Nat × Nat) (s : List Char) (d : Bool) (tr2 : Nat × Nat) (r : List Char)
    (hdec : decodeLiteral (extractSpan source tr) = some s)
    (h : rewrite_quotes_for_node pr source tr s d = some (tr2, r)) :
    decodeLiteral r = some s := by
  unfold rewrite_quotes_for_node at h
  split_ifs at h with g1 g2 g3 g4 g5 g6 g7 <;> simp only [Option.some.injEq, Prod.mk.injEq] at h
  · obtain ⟨-, hr⟩ := h
    subst hr
    have hs : s = [] := by
      rcases g3 with g3 | g3 <;> rw [g3] at hdec
      · have : decodeLiteral ['"', '"'] = some [] := by
          simp [decodeLiteral, decodeBody, chopEnd, beginsWith]
        rw [this] at hdec
        exact (Option.some.injEq _ _).mp hdec.symm
      · have : decodeLiteral ['\'', '\''] = some [] := by
          simp [decodeLiteral, decodeBody, chopEnd, beginsWith]
        rw [this] at hdec
        exact (Option.some.injEq _ _).mp hdec.symm
    subst hs
    simp [decodeLiteral, decodeBody, chopEnd, beginsWith]
  · obtain ⟨-, hr⟩ := h
    subst hr
    exact decodeLiteral_pyRepr pr s
  · obtain ⟨-, hr⟩ := h
    subst hr
    exact decodeLiteral_pyRepr pr s

theorem splice_extract_self (source2 : List Char) (tr2 : Nat × Nat) (r : List Char)
    (hle : tr2.1 ≤ tr2.2) (hsp : extractSpan source2 tr2 = r) :
    spliceOne source2 (tr2, r) = source2 := by
  unfold spliceOne
  unfold extractSpan at hsp
  have hdd : (source2.drop tr2.1).drop (tr2.2 - tr2.1) = source2.drop tr2.2 := by
    rw [List.drop_drop]
    congr 1
    omega
  calc source2.take tr2.1 ++ r ++ source2.drop tr2.2
      = source2.take tr2.1 ++ ((source2.drop tr2.1).take (tr2.2 - tr2.1)
          ++ (source2.drop tr2.1).drop (tr2.2 - tr2.1)) := by
        rw [hsp, hdd, List.append_assoc]
    _ = source2.take tr2.1 ++ source2.drop tr2.1 := by rw [List.take_append_drop]
    _ = source2 := List.take_append_drop _ _

/-- C7: idempotence at the literal level.  If the first pass records
replacement text `r` for a node, then on any second pass a non-docstring
node whose span now holds `r` (with the value the parser decodes from it)
is classified to the identical replacement, and splicing `r` over its own
span is the identity, so the rewritten text is a fixed point. -/
theorem rewrite_idempotent_on_literal (pr : Char → Bool) (source : List Char)
    (tr : Nat × Nat) (s : List Char) (d : Bool) (tr0 : Nat × Nat) (r : List Char)
    (source2 : List Char) (tr2 : Nat × Nat) (s2 : List Char)
    (h : rewrite_quotes_for_node pr source tr s d = some (tr0, r))
    (h0 : tr2 ≠ (0, 0)) (hle : tr2.1 ≤ tr2.2)
    (hsp : extractSpan source2 tr2 = r)
    (hdec : decodeLiteral r = some s2) :
    rewrite_quotes_for_node pr source2 tr2 s2 false = some (tr2, r) ∧
    spliceOne source2 (tr2, r) = source2 := by
  refine ⟨?_, splice_extract_self source2 tr2 r hle hsp⟩
  unfold rewrite_quotes_for_node at h
  split_ifs at h with g1 g2 g3 g4 g5 g6 g7 <;> simp only [Option.some.injEq, Prod.mk.injEq] at h
  · -- empty-spelling branch: r is the canonical empty literal
    obtain ⟨-, hr⟩ := h
    subst hr
    unfold rewrite_quotes_for_node
    rw [if_neg h0, if_neg (by simp), if_pos (Or.inr hsp)]
  · -- single-character branch: r = pyRepr pr s with s of length one
    obtain ⟨-, hr⟩ := h
    subst hr
    have hs2 : s = s2 := by
      rw [decodeLiteral_pyRepr pr s] at hdec
      exact (Option.some.injEq _ _).mp hdec
    subst hs2
    have hsne : s ≠ [] := by intro hn; rw [hn] at g5; simp at g5
    unfold rewrite_quotes_for_node
    rw [if_neg h0, if_neg (by simp),
      if_neg (by rw [hsp]; rintro (hh | hh) <;> exact pyRepr_ne_pair pr s hsne _ _ hh),
      if_neg (by rw [hsp, pyRepr_head]; rcases pyQuote_mem s with hq | hq <;> simp [hq]),
      if_pos g5]
  · -- general branch: r = pyRepr pr s
    obtain ⟨-, hr⟩ := h
    subst hr
    have hs2 : s = s2 := by
      rw [decodeLiteral_pyRepr pr s] at hdec
      exact (Option.some.injEq _ _).mp hdec
    subst hs2
    rcases eq_or_ne s [] with hs | hs
    · subst hs
      unfold rewrite_quotes_for_node
      rw [if_neg h0, if_neg (by simp), if_pos (Or.inr (by rw [hsp, pyRepr_nil]))]
      rw [pyRepr_nil]
    · unfold rewrite_quotes_for_node
      rw [if_neg h0, if_neg (by simp),
        if_neg (by rw [hsp]; rintro (hh | hh) <;> exact pyRepr_ne_pair pr s hs _ _ hh),
        if_neg (by rw [hsp, pyRepr_head]; rcases pyQuote_mem s with hq | hq <;> simp [hq]),
        if_neg g5,
        if_neg (by rw [hsp, pyRepr_contains_newline]; decide),
        if_neg g7]


/-- C3 (amended): a literal whose spelling contains a newline character is
left without an edit, except when its decoded value has exactly one
character (handled by the earlier single-character rule). -/
theorem multiline_skip_amended (pr : Char → Bool) (source : List Char)
    (tr : Nat × Nat) (s : List Char) (d : Bool)
    (h1 : (extractSpan source tr).contains '\n' = true)
    (h2 : s.length ≠ 1) :
    rewrite_quotes_for_node pr source tr s d = none := by
  unfold rewrite_quotes_for_node
  split_ifs with g1 g2 g3 <;> try rfl
  rcases g3 with g3 | g3 <;> rw [g3] at h1 <;> exact absurd h1 (by decide)


theorem rewrite_quotes_docstring (pr : Char → Bool) (source : List Char)
    (tr : Nat × Nat) (s : List Char) :
    rewrite_quotes_for_node pr source tr s true = none := by
  unfold rewrite_quotes_for_node
  split_ifs <;> simp_all

/-- C5: in a definition whose first statement is a bare string-expression
statement, the marked literal contributes no edit: the edits of the
definition are exactly those of the remaining statements and of the other
child subtrees. -/
theorem docstring_never_rewritten (pr : Char → Bool) (source : List Char)
    (tr : Nat × Nat) (s : List Char) (rest extra : List PyTree) :
    visitNode pr source
        (PyTree.defNode (PyTree.exprStmt (PyTree.strLit tr s) :: rest) extra)
      = visitNodeList pr source rest ++ visitNodeList pr source extra := by
  simp [visitNode, visitFirstStmt, visitMarkedNode, rewrite_quotes_docstring]

/-- C9: a module-level leading bare string-expression statement is not
marked as a docstring — only definitions mark — so it is classified like
any other literal, and an eligible module docstring is rewritten. -/
theorem module_docstring_not_exempt :
    (∀ (pr : Char → Bool) (source : List Char) (tr : Nat × Nat) (s : List Char)
        (rest : List PyTree),
      visitNode pr source (PyTree.moduleNode (PyTree.exprStmt (PyTree.strLit tr s) :: rest))
        = (rewrite_quotes_for_node pr source tr s false).toList ++
            visitNodeList pr source rest) ∧
    rewriteSource asciiOnlyPrintable ("'''Doc.'''\nx = 1".toList)
        (PyTree.moduleNode [PyTree.exprStmt (PyTree.strLit (0, 10) ("Doc.".toList)),
          PyTree.node []])
      = "'Doc.'\nx = 1".toList := by
  constructor
  · intro pr source tr s rest
    simp [visitNode, visitNodeList]
  · decide

/-- C1: the code contradicts the double-quote preference stated by the
spec and by its own module docstring.  On `z = 'hello'` the recorded
replacement is the language repr of `hello`, which prefers single quotes,
so the output stays `z = 'hello'` instead of becoming `z = "hello"`; an
input already using double quotes is even converted to single quotes. -/
theorem quote_preference_code_bug :
    rewriteSource asciiOnlyPrintable ("z = 'hello'".toList)
        (PyTree.moduleNode [PyTree.node [PyTree.strLit (4, 11) ("hello".toList)]])
      = "z = 'hello'".toList ∧
    rewriteSource asciiOnlyPrintable ("z = \"hello\"".toList)
        (PyTree.moduleNode [PyTree.node [PyTree.strLit (4, 11) ("hello".toList)]])
      = "z = 'hello'".toList ∧
    "z = 'hello'".toList ≠ "z = \"hello\"".toList := by
  refine ⟨by decide, by decide, by decide⟩

/-- C2 counterexample: the single-character literal whose value is a
single-quote character is replaced by the double-delimited spelling, not a
single-delimited one. -/
theorem single_char_double_quote_counterexample :
    rewrite_quotes_for_node asciiOnlyPrintable ("x = \"'\"".toList) (4, 7) ['\''] false
      = some ((4, 7), ['"', '\'', '"']) ∧
    (['"', '\'', '"'] : List Char).head? ≠ some '\'' := by
  refine ⟨by decide, by decide⟩

/-- C3 counterexample: a triple-quoted literal written on a single line is
rewritten, not left unchanged. -/
theorem triple_on_one_line_rewritten :
    rewriteSource asciiOnlyPrintable ("x = '''hello'''".toList)
        (PyTree.moduleNode [PyTree.node [PyTree.strLit (4, 15) ("hello".toList)]])
      = "x = 'hello'".toList ∧
    "x = 'hello'".toList ≠ "x = '''hello'''".toList := by
  refine ⟨by decide, by decide⟩

/-- C4 counterexample: the literal whose spelling is backslash-n in double
quotes, so whose decoded value is a single newline character, gets an edit
from the single-character rule and the text changes. -/
theorem single_newline_literal_rewritten :
    visitNode asciiOnlyPrintable ("x = \"\\n\"".toList)
        (PyTree.moduleNode [PyTree.node [PyTree.strLit (4, 8) ['\n']]])
      = [((4, 8), "'\\n'".toList)] ∧
    rewriteSource asciiOnlyPrintable ("x = \"\\n\"".toList)
        (PyTree.moduleNode [PyTree.node [PyTree.strLit (4, 8) ['\n']]])
      = "x = '\\n'".toList ∧
    "x = '\\n'".toList ≠ "x = \"\\n\"".toList := by
  refine ⟨by decide, by decide, by decide⟩

theorem multiline_skip_amended_witness :
    rewrite_quotes_for_node asciiOnlyPrintable ("x = '''a\nb'''".toList) (4, 13)
      ['a', '\n', 'b'] false = none :=
  multiline_skip_amended asciiOnlyPrintable ("x = '''a\nb'''".toList) (4, 13)
    ['a', '\n', 'b'] false (by decide) (by decide)

theorem newline_content_skip_amended_witness :
    rewrite_quotes_for_node asciiOnlyPrintable ("x = 'a\\nb'".toList) (4, 11)
      ['a', '\n', 'b'] false = none :=
  newline_content_skip_amended asciiOnlyPrintable ("x = 'a\\nb'".toList) (4, 11)
    ['a', '\n', 'b'] false (by decide) (by decide) (by decide)

theorem empty_and_single_char_amended_witness :
    rewrite_quotes_for_node asciiOnlyPrintable ("x = \"a\"".toList) (4, 7) ['a'] false
      = some ((4, 7), "'a'".toList) :=
  (((empty_and_single_char_amended asciiOnlyPrintable ("x = \"a\"".toList) (4, 7) ['a']
    (by decide)).2 (by decide) (by decide) (by decide)).1).trans (by decide)

theorem value_preservation_witness :
    decodeLiteral ("'hi'".toList) = some ("hi".toList) :=
  value_preservation asciiOnlyPrintable ("z = 'hi'".toList) (4, 8) ("hi".toList) false
    (4, 8) ("'hi'".toList)
    (by simp [extractSpan, decodeLiteral, decodeBody, chopEnd, beginsWith])
    (by decide)

theorem rewrite_idempotent_on_literal_witness :
    rewrite_quotes_for_node asciiOnlyPrintable ("z = 'hi'".toList) (4, 8) ("hi".toList) false
      = some ((4, 8), "'hi'".toList) ∧
    spliceOne ("z = 'hi'".toList) ((4, 8), "'hi'".toList) = "z = 'hi'".toList :=
  rewrite_idempotent_on_literal asciiOnlyPrintable ("z = \"hi\"".toList) (4, 8)
    ("hi".toList) false (4, 8) ("'hi'".toList) ("z = 'hi'".toList) (4, 8) ("hi".toList)
    (by decide) (by decide) (by decide) (by decide)
    (by simp [decodeLiteral, decodeBody, chopEnd, beginsWith])

theorem implicit_concat_single_edit_witness :
    rewrite_quotes_for_node asciiOnlyPrintable ("x = \"a\" \"b\"".toList) (4, 11)
      ("ab".toList) false = some ((4, 11), "'ab'".toList) :=
  (implicit_concat_single_edit asciiOnlyPrintable ("x = \"a\" \"b\"".toList) (4, 11)
    ("ab".toList) (by decide) (by decide) (by decide) (by decide) (by decide)
    (by decide)).trans (by decide)

instance : IsTotal Edit keyGe :=
  ⟨by intro a b; unfold keyGe; omega⟩

instance : IsTrans Edit keyGe :=
  ⟨by intro a b c; unfold keyGe; omega⟩

theorem spliceOne_append (a b : List Char) (ed : Edit)
    (h1 : ed.1.1 ≤ a.length) (h2 : ed.1.2 ≤ a.length) :
    spliceOne (a ++ b) ed = spliceOne a ed ++ b := by
  unfold spliceOne
  rw [List.take_append_of_le_length h1, List.drop_append_of_le_length h2]
  simp [List.append_assoc]

theorem length_spliceOne_ge (a : List Char) (ed : Edit) (h1 : ed.1.1 ≤ a.length) :
    ed.1.1 ≤ (spliceOne a ed).length := by
  unfold spliceOne
  simp
  omega

theorem foldl_spliceOne_append : ∀ (l : List Edit) (a b : List Char),
    (∀ ed ∈ l, ed.1.1 ≤ ed.1.2 ∧ ed.1.2 ≤ a.length) →
    List.Pairwise (fun x y => y.1.2 ≤ x.1.1) l →
    List.foldl spliceOne (a ++ b) l = List.foldl spliceOne a l ++ b := by
  intro l
  induction l with
  | nil => intro a b _ _; rfl
  | cons ed l' ih =>
    intro a b hb hp
    have hed := hb ed (List.mem_cons_self _ _)
    simp only [List.foldl_cons]
    rw [spliceOne_append a b ed (le_trans hed.1 hed.2) hed.2]
    apply ih
    · intro e he
      refine ⟨(hb e (List.mem_cons_of_mem _ he)).1, ?_⟩
      have hsep := (List.pairwise_cons.mp hp).1 e he
      calc e.1.2 ≤ ed.1.1 := hsep
        _ ≤ (spliceOne a ed).length := length_spliceOne_ge a ed (le_trans hed.1 hed.2)
    · exact (List.pairwise_cons.mp hp).2

theorem frameFrom_snoc : ∀ (l : List Edit) (src : List Char) (pos : Nat) (ed : Edit),
    (∀ e ∈ l, e.1.1 ≤ e.1.2 ∧ e.1.2 ≤ ed.1.1) → pos ≤ ed.1.1 → ed.1.1 ≤ src.length →
    frameFrom src pos (l ++ [ed])
      = frameFrom (src.take ed.1.1) pos l ++ ed.2 ++ src.drop ed.1.2 := by
  intro l
  induction l with
  | nil =>
    intro src pos ed _ hpos hlen
    simp only [List.nil_append, frameFrom]
    rw [List.drop_take]
  | cons e1 l' ih =>
    intro src pos ed hb hpos hlen
    have he1 := hb e1 (List.mem_cons_self _ _)
    show (src.drop pos).take (e1.1.1 - pos) ++ e1.2 ++ frameFrom src e1.1.2 (l' ++ [ed])
      = ((src.take ed.1.1).drop pos).take (e1.1.1 - pos) ++ e1.2 ++
          frameFrom (src.take ed.1.1) e1.1.2 l' ++ ed.2 ++ src.drop ed.1.2
    rw [ih src e1.1.2 ed (fun e he => hb e (List.mem_cons_of_mem _ he)) he1.2 hlen]
    have hseg : ((src.take ed.1.1).drop pos).take (e1.1.1 - pos)
        = (src.drop pos).take (e1.1.1 - pos) := by
      rw [List.drop_take, List.take_take]
      congr 1
      have : e1.1.1 ≤ ed.1.1 := le_trans he1.1 he1.2
      omega
    rw [hseg]
    simp [List.append_assoc]

theorem foldl_spliceOne_eq_frame : ∀ (l : List Edit) (src : List Char),
    (∀ ed ∈ l, ed.1.1 ≤ ed.1.2 ∧ ed.1.2 ≤ src.length) →
    List.Pairwise (fun x y => y.1.2 ≤ x.1.1) l →
    List.foldl spliceOne src l = frameFrom src 0 l.reverse := by
  intro l
  induction l with
  | nil => intro src _ _; simp [frameFrom]
  | cons ed l' ih =>
    intro src hb hp
    have hed := hb ed (List.mem_cons_self _ _)
    have hsep := (List.pairwise_cons.mp hp).1
    have htl := (List.pairwise_cons.mp hp).2
    simp only [List.foldl_cons, List.reverse_cons]
    have hsplice : spliceOne src ed = src.take ed.1.1 ++ (ed.2 ++ src.drop ed.1.2) := by
      unfold spliceOne
      simp [List.append_assoc]
    rw [hsplice]
    rw [foldl_spliceOne_append l' (src.take ed.1.1) (ed.2 ++ src.drop ed.1.2)
      (fun e he => ⟨(hb e (List.mem_cons_of_mem _ he)).1, by
        rw [List.length_take]
        have := hsep e he
        omega⟩) htl]
    rw [ih (src.take ed.1.1)
      (fun e he => ⟨(hb e (List.mem_cons_of_mem _ he)).1, by
        rw [List.length_take]
        have := hsep e he
        omega⟩) htl]
    rw [frameFrom_snoc l'.reverse src 0 ed
      (fun e he => ⟨(hb e (List.mem_cons_of_mem _ (List.mem_reverse.mp he))).1,
        hsep e (List.mem_reverse.mp he)⟩)
      (Nat.zero_le _) (le_trans hed.1 hed.2)]
    simp [List.append_assoc]

theorem sorted_desc_sep : ∀ l : List Edit,
    List.Sorted keyGe l →
    List.Pairwise (fun a b => a.1.2 ≤ b.1.1 ∨ b.1.2 ≤ a.1.1) l →
    (∀ ed ∈ l, ed.1.1 < ed.1.2) →
    List.Pairwise (fun x y => y.1.2 ≤ x.1.1) l := by
  intro l
  induction l with
  | nil => intro _ _ _; exact List.Pairwise.nil
  | cons a l' ih =>
    intro hsort hsep hne
    rw [List.pairwise_cons]
    constructor
    · intro b hb
      have hk : keyGe a b := (List.pairwise_cons.mp hsort).1 b hb
      have hs := (List.pairwise_cons.mp hsep).1 b hb
      have hna := hne a (List.mem_cons_self _ _)
      have hnb := hne b (List.mem_cons_of_mem _ hb)
      unfold keyGe at hk
      omega
    · exact ih (List.pairwise_cons.mp hsort).2 (List.pairwise_cons.mp hsep).2
        (fun e he => hne e (List.mem_cons_of_mem _ he))

/-- C8: frame property of the apply pass.  For non-overlapping in-bounds
edits, the splicing loop (which sorts descending by range key and splices
bottom-up) produces exactly the frame-shaped text: every character outside
the recorded spans is copied through unchanged and in order, with each
span replaced by its recorded text; and with no edits the source is
returned unchanged. -/
theorem apply_pass_frame_property (source : List Char) (reps : List Edit)
    (hb : ∀ ed ∈ reps, ed.1.1 < ed.1.2 ∧ ed.1.2 ≤ source.length)
    (hsep : List.Pairwise (fun a b => a.1.2 ≤ b.1.1 ∨ b.1.2 ≤ a.1.1) reps) :
    applyReplacements source reps
      = frameFrom source 0 (List.insertionSort keyGe reps).reverse ∧
    applyReplacements source [] = source := by
  constructor
  · have hperm : List.Perm (List.insertionSort keyGe reps) reps :=
      List.perm_insertionSort keyGe reps
    have hsort : List.Sorted keyGe (List.insertionSort keyGe reps) :=
      List.sorted_insertionSort keyGe reps
    have hsep' := (hperm.pairwise_iff (fun hab => hab.symm)).mpr hsep
    have hb' : ∀ ed ∈ List.insertionSort keyGe reps,
        ed.1.1 < ed.1.2 ∧ ed.1.2 ≤ source.length :=
      fun ed he => hb ed (hperm.mem_iff.mp he)
    have hdesc := sorted_desc_sep _ hsort hsep' (fun ed he => (hb' ed he).1)
    unfold applyReplacements
    exact foldl_spliceOne_eq_frame _ source
      (fun ed he => ⟨le_of_lt (hb' ed he).1, (hb' ed he).2⟩) hdesc
  · rfl

theorem apply_pass_frame_property_witness :
    applyReplacements ("ab = 'pq' ; cd = 'rs'".toList)
        [((5, 9), "'y'".toList), ((17, 21), "'x'".toList)]
      = frameFrom ("ab = 'pq' ; cd = 'rs'".toList) 0
          (List.insertionSort keyGe
            [((5, 9), "'y'".toList), ((17, 21), "'x'".toList)]).reverse ∧
    applyReplacements ("ab = 'pq' ; cd = 'rs'".toList) [] = "ab = 'pq' ; cd = 'rs'".toList :=
  apply_pass_frame_property ("ab = 'pq' ; cd = 'rs'".toList)
    [((5, 9), "'y'".toList), ((17, 21), "'x'".toList)]
    (by decide) (by decide)

end GrayFormatter
